import Mathlib

/-!
Verification of the deployment packaging & upload pipeline of the dibbla CLI
(the `deploy` package: archive creation with exclusion rules, the archive
size gate, multipart form construction, and interpretation of the remote
service's JSON responses).

Paths are modelled as strings over an explicit host path-separator character
`sep`; a directory tree is a forest of `FSNode`s whose children are listed in
the traversal order of `filepath.Walk`; the gzip-compressed tar byte stream is
abstracted to its ordered sequence of tar records (`ArchiveEntry`), while the
size gate of `Run` operates on the compressed byte count, which is kept
abstract as the length of the byte list handed to the gate.
-/

/-! ## Path helpers (`path/filepath`) -/

/-- `strings.HasPrefix`, on the character-list representation of strings
(byte and character prefixes agree on UTF-8 text). -/
def strStartsWith (s p : String) : Bool := p.data.isPrefixOf s.data

/-- `strings.ToLower`; the character-wise case mapping covers every
configured rule, which is plain ASCII. -/
def strToLower (s : String) : String := String.mk (s.data.map Char.toLower)

/-- Splitting at every separator occurrence (the splitting behind
`filepath.Base` and `filepath.Ext`); an empty string yields one empty
element. -/
def splitCharAux (sep : Char) (cur : List Char) : List Char → List String
  | [] => [String.mk cur.reverse]
  | c :: rest =>
    if c == sep then String.mk cur.reverse :: splitCharAux sep [] rest
    else splitCharAux sep (c :: cur) rest

def splitChar (sep : Char) (s : String) : List String := splitCharAux sep [] s.data

/-- `filepath.Base`: empty path gives ".", otherwise trailing separators are
stripped and the text after the last separator is returned. -/
def stringBase (sep : Char) (path : String) : String :=
  if path = "" then "."
  else
    let trimmed := String.mk (path.data.reverse.dropWhile (· == sep)).reverse
    if trimmed = "" then String.singleton sep
    else (splitChar sep trimmed).getLastD trimmed

/-- Helper for `filepath.Ext`: scan the reversed character list; on the first
dot, return that dot together with the characters already passed (which are
accumulated in original order). -/
def dotSuffixAux (passed : List Char) : List Char → List Char
  | [] => []
  | c :: rest => if c = '.' then c :: passed else dotSuffixAux (c :: passed) rest

/-- `filepath.Ext`: the suffix of the final path element starting at its last
dot; empty when the final element has no dot. -/
def stringExt (sep : Char) (path : String) : String :=
  let lastElem := (splitChar sep path).getLastD path
  String.mk (dotSuffixAux [] lastElem.data.reverse)

/-- Relative paths produced by `filepath.Rel` during the walk: the segment
names joined by the host separator. -/
def joinPath (sep : Char) (segs : List String) : String :=
  String.intercalate (String.singleton sep) segs

/-! ## Exclusion rules (`shouldExclude`) -/

/-- The slice of `os.FileInfo` this pipeline can observe. -/
structure FileInfo where
  isDir : Bool
  isSymlink : Bool
deriving Repr, DecidableEq

/-- `excludedPaths` from the source: names that must not enter the archive. -/
def excludedPaths : List String :=
  [".git", "node_modules", ".env.production", ".env.prod", "id_rsa",
   "id_ed25519", "id_ecdsa", "id_dsa", "credentials.json", "service-account.json"]

/-- `excludedExtensions` from the source. -/
def excludedExtensions : List String :=
  [".pem", ".key", ".exe", ".dll", ".so", ".dylib", ".bat", ".cmd",
   ".com", ".msi", ".scr", ".pif"]

/-- `shouldExclude(relPath, info)`: a name rule fires when the base name equals
the rule or the relative path starts with the rule followed by the host
separator; an extension rule fires on the lower-cased `filepath.Ext`. The
`info` parameter is part of the source signature but is never consulted by
the body. -/
def shouldExclude (sep : Char) (relPath : String) (_info : FileInfo) : Bool :=
  (excludedPaths.any fun ex =>
      stringBase sep relPath == ex || strStartsWith relPath (ex.push sep)) ||
  (excludedExtensions.any fun ex => strToLower (stringExt sep relPath) == ex)

/-- A fixed metadata value, usable where the (ignored) `info` argument is
needed on the specification side. -/
def anyInfo : FileInfo := ⟨false, false⟩

/-! ## The directory walk of `createArchive` -/

/-- A filesystem node: regular file with its byte content, symbolic link with
its target, or directory with its children listed in walk order. -/
inductive FSNode where
  | file (name : String) (content : List Nat)
  | symlink (name : String) (target : String)
  | dir (name : String) (children : List FSNode)
deriving Repr

def FSNode.name : FSNode → String
  | .file n _ => n
  | .symlink n _ => n
  | .dir n _ => n

def FSNode.info : FSNode → FileInfo
  | .file _ _ => ⟨false, false⟩
  | .symlink _ _ => ⟨false, true⟩
  | .dir _ _ => ⟨true, false⟩

inductive EntryKind where
  | regular
  | directory
  | symlink
deriving Repr, DecidableEq

/-- One tar record of the produced archive: header name (the relative path),
entry kind, link target (symbolic links only), and the copied content bytes
(regular files only). -/
structure ArchiveEntry where
  name : String
  kind : EntryKind
  linkname : String
  content : List Nat
deriving Repr, DecidableEq

/-- The tar record `createArchive` writes for one retained node:
`tar.FileInfoHeader` plus `header.Name = relPath`; for symbolic links the
header carries the link target read by `os.Readlink` and no content is
copied; for regular files the full byte content follows the header. -/
def mkEntry (sep : Char) (segs : List String) : FSNode → ArchiveEntry
  | .file _ content => ⟨joinPath sep segs, .regular, "", content⟩
  | .symlink _ target => ⟨joinPath sep segs, .symlink, target, []⟩
  | .dir _ _ => ⟨joinPath sep segs, .directory, "", []⟩

/-- The `filepath.Walk` callback of `createArchive`, run over a forest: the
relative path of a node is its segment path joined by the host separator;
a node whose relative path triggers `shouldExclude` is skipped, and when it
is a directory the walk returns `filepath.SkipDir`, so none of its
descendants is visited; every retained node contributes its tar record. -/
def walkForest (sep : Char) (pre : List String) : List FSNode → List ArchiveEntry
  | [] => []
  | FSNode.file fn c :: rest =>
    (if shouldExclude sep (joinPath sep (pre ++ [fn])) (FSNode.file fn c).info then []
     else [mkEntry sep (pre ++ [fn]) (FSNode.file fn c)]) ++ walkForest sep pre rest
  | FSNode.symlink sn t :: rest =>
    (if shouldExclude sep (joinPath sep (pre ++ [sn])) (FSNode.symlink sn t).info then []
     else [mkEntry sep (pre ++ [sn]) (FSNode.symlink sn t)]) ++ walkForest sep pre rest
  | FSNode.dir dn cs :: rest =>
    (if shouldExclude sep (joinPath sep (pre ++ [dn])) (FSNode.dir dn cs).info then []
     else mkEntry sep (pre ++ [dn]) (FSNode.dir dn cs)
            :: walkForest sep (pre ++ [dn]) cs) ++ walkForest sep pre rest
termination_by l => sizeOf l
decreasing_by all_goals simp_wf <;> omega

/-- `createArchive`: the ordered tar records of the produced archive. The
walk starts at the resolved root, whose own visit (relative path ".") writes
nothing, so the walk proper runs over the root's children. -/
def createArchive (sep : Char) (root : List FSNode) : List ArchiveEntry :=
  walkForest sep [] root

/-- Every node of a forest paired with its root-relative segment path, in
walk order, with no exclusion applied. -/
def forestNodes (pre : List String) : List FSNode → List (List String × FSNode)
  | [] => []
  | FSNode.dir dn cs :: rest =>
    (pre ++ [dn], FSNode.dir dn cs) :: (forestNodes (pre ++ [dn]) cs ++ forestNodes pre rest)
  | n :: rest => (pre ++ [n.name], n) :: forestNodes pre rest
termination_by l => sizeOf l
decreasing_by all_goals simp_wf <;> omega

/-- Specification-side predicate: no exclusion rule fires on the path itself
nor on any of its ancestors (every nonempty leading run of segments passes
the filter). -/
def pathClear (sep : Char) (segs : List String) : Bool :=
  (List.range segs.length).all fun i =>
    !shouldExclude sep (joinPath sep (segs.take (i + 1))) anyInfo

/-- Specification-side archive: exactly the nodes whose own path and all
ancestor paths are rule-free, in walk order. -/
def specArchive (sep : Char) (root : List FSNode) : List ArchiveEntry :=
  ((forestNodes [] root).filter fun pn => pathClear sep pn.1).map fun pn =>
    mkEntry sep pn.1 pn.2

/-! ## JSON bodies and response structures (`encoding/json`) -/

/-- A parsed JSON value. The wire body of a response is modelled at this
level; numbers are restricted to integers, which covers every field the
response structures decode. -/
inductive Json where
  | null
  | bool (b : Bool)
  | num (n : Int)
  | str (s : String)
  | arr (elems : List Json)
  | obj (fields : List (String × Json))
deriving Repr

/-- `HealthCheck` from the source. -/
structure HealthCheck where
  status : String
  checkedAt : String
  responseTimeMs : Int
deriving Repr, DecidableEq

/-- `Deployment` from the source. -/
structure Deployment where
  id : String
  aliasName : String  -- `Alias` in the source; `alias` is reserved here
  url : String
  status : String
  containerId : String
  imageId : String
  createdAt : String
  deployedAt : String
  healthCheck : Option HealthCheck
deriving Repr, DecidableEq

/-- `DeployResponse` from the source. -/
structure DeployResponse where
  status : String
  deployment : Deployment
deriving Repr, DecidableEq

/-- `ValidationError` from the source. -/
structure ValidationError where
  field : String
  error : String
  suggestion : String
deriving Repr, DecidableEq

/-- `ErrorDetail` from the source. -/
structure ErrorDetail where
  code : String
  message : String
  details : List ValidationError
  requestId : String
  documentation : String
deriving Repr, DecidableEq

/-- `ErrorResponse` from the source. -/
structure ErrorResponse where
  status : String
  error : ErrorDetail
deriving Repr, DecidableEq

/-- Object lookup as `json.Unmarshal` performs it: keys are processed in
document order and a later duplicate overwrites an earlier one, so the last
binding of a key wins. -/
def lastField (fields : List (String × Json)) (k : String) : Option Json :=
  ((fields.filter fun f => f.1 == k).getLast?).map fun f => f.2

/-- Decoding of one string-typed struct field: an absent key or JSON `null`
leaves the zero value `""`; a JSON string is taken verbatim; any other value
is a type mismatch and fails the whole `Unmarshal`. -/
def decodeStrField (fields : List (String × Json)) (k : String) : Option String :=
  match lastField fields k with
  | none => some ""
  | some Json.null => some ""
  | some (Json.str s) => some s
  | some _ => none

/-- Decoding of one integer-typed struct field, same conventions. -/
def decodeIntField (fields : List (String × Json)) (k : String) : Option Int :=
  match lastField fields k with
  | none => some 0
  | some Json.null => some 0
  | some (Json.num n) => some n
  | some _ => none

def decodeHealthCheckFields (fs : List (String × Json)) : Option HealthCheck := do
  let status ← decodeStrField fs "status"
  let checkedAt ← decodeStrField fs "checked_at"
  let rt ← decodeIntField fs "response_time_ms"
  pure ⟨status, checkedAt, rt⟩

def zeroDeployment : Deployment := ⟨"", "", "", "", "", "", "", "", none⟩

def decodeDeploymentFields (fs : List (String × Json)) : Option Deployment := do
  let id ← decodeStrField fs "id"
  let aliasName ← decodeStrField fs "alias"
  let url ← decodeStrField fs "url"
  let status ← decodeStrField fs "status"
  let containerId ← decodeStrField fs "container_id"
  let imageId ← decodeStrField fs "image_id"
  let createdAt ← decodeStrField fs "created_at"
  let deployedAt ← decodeStrField fs "deployed_at"
  let hc ← match lastField fs "health_check" with
    | none => some Option.none
    | some Json.null => some Option.none
    | some (Json.obj hfs) => (decodeHealthCheckFields hfs).map Option.some
    | some _ => none
  pure ⟨id, aliasName, url, status, containerId, imageId, createdAt, deployedAt, hc⟩

/-- `json.Unmarshal(body, &DeployResponse)`: a top-level `null` leaves the
zero value; an object decodes field-wise; any other top-level value fails. -/
def decodeDeployResponseJson : Json → Option DeployResponse
  | Json.null => some ⟨"", zeroDeployment⟩
  | Json.obj fs => do
    let status ← decodeStrField fs "status"
    let dep ← match lastField fs "deployment" with
      | none => some zeroDeployment
      | some Json.null => some zeroDeployment
      | some (Json.obj dfs) => decodeDeploymentFields dfs
      | some _ => none
    pure ⟨status, dep⟩
  | _ => none

def zeroValidationError : ValidationError := ⟨"", "", ""⟩

def decodeValidationErrorJson : Json → Option ValidationError
  | Json.null => some zeroValidationError
  | Json.obj fs => do
    let f ← decodeStrField fs "field"
    let e ← decodeStrField fs "error"
    let s ← decodeStrField fs "suggestion"
    pure ⟨f, e, s⟩
  | _ => none

def zeroErrorDetail : ErrorDetail := ⟨"", "", [], "", ""⟩

def decodeErrorDetailFields (fs : List (String × Json)) : Option ErrorDetail := do
  let code ← decodeStrField fs "code"
  let message ← decodeStrField fs "message"
  let details ← match lastField fs "details" with
    | none => some ([] : List ValidationError)
    | some Json.null => some ([] : List ValidationError)
    | some (Json.arr elems) => elems.mapM decodeValidationErrorJson
    | some _ => none
  let requestId ← decodeStrField fs "request_id"
  let documentation ← decodeStrField fs "documentation"
  pure ⟨code, message, details, requestId, documentation⟩

/-- `json.Unmarshal(body, &ErrorResponse)`. -/
def decodeErrorResponseJson : Json → Option ErrorResponse
  | Json.null => some ⟨"", zeroErrorDetail⟩
  | Json.obj fs => do
    let status ← decodeStrField fs "status"
    let detail ← match lastField fs "error" with
      | none => some zeroErrorDetail
      | some Json.null => some zeroErrorDetail
      | some (Json.obj efs) => decodeErrorDetailFields efs
      | some _ => none
    pure ⟨status, detail⟩
  | _ => none

/-- A response body as the client sees it: either raw text that parses as a
JSON value, or raw text that is not valid JSON at all. -/
inductive RespBody where
  | parsed (raw : String) (j : Json)
  | invalid (raw : String)

def RespBody.raw : RespBody → String
  | .parsed r _ => r
  | .invalid r => r

def decodeDeployResponse : RespBody → Option DeployResponse
  | .parsed _ j => decodeDeployResponseJson j
  | .invalid _ => none

def decodeErrorResponse : RespBody → Option ErrorResponse
  | .parsed _ j => decodeErrorResponseJson j
  | .invalid _ => none

/-! ## Error rendering (`formatAPIError`) and response handling -/

/-- `formatAPIError`: `code: message`, then — when validation details are
present — a `Details:` block with one `  - field: problem` line per detail
and an indented `Suggestion:` line when the detail has one; the message is
accumulated left to right exactly as the source's loop appends to `msg`. -/
def formatAPIError (e : ErrorResponse) : String :=
  let msg := e.error.code ++ ": " ++ e.error.message
  if e.error.details.length > 0 then
    e.error.details.foldl
      (fun m d =>
        let m' := m ++ "\n  - " ++ d.field ++ ": " ++ d.error
        if d.suggestion ≠ "" then m' ++ "\n    Suggestion: " ++ d.suggestion else m')
      (msg ++ "\n\nDetails:")
  else msg

/-- The text one validation detail contributes to the rendered message. -/
def detailLine (d : ValidationError) : String :=
  "\n  - " ++ d.field ++ ": " ++ d.error ++
    (if d.suggestion ≠ "" then "\n    Suggestion: " ++ d.suggestion else "")

def concatAll (l : List String) : String := l.foldr (· ++ ·) ""

/-- Specification-side rendering: `code: message`, followed — when details
are present — by the detail lines in the order received. -/
def specErrorRender (e : ErrorResponse) : String :=
  e.error.code ++ ": " ++ e.error.message ++
    (if e.error.details = [] then ""
     else "\n\nDetails:" ++ concatAll (e.error.details.map detailLine))

def statusCreated : Nat := 201

def statusOK : Nat := 200

/-- Result of `upload` as observed by `Run`: a decoded `DeployResponse` or an
error message string. -/
inductive UploadResult where
  | ok (r : DeployResponse)
  | err (msg : String)
deriving Repr, DecidableEq

/-- The response-interpretation tail of `upload` (after `io.ReadAll`):
`201 Created` and `200 OK` decode the body as a `DeployResponse`; every other
status decodes it as an `ErrorResponse` and renders it with `formatAPIError`,
falling back to the raw status code and raw body when that decoding fails.
The Go message for an undecodable success body wraps the underlying decoder
error; that underlying text is abstracted away here. -/
def handleResponse (statusCode : Nat) (body : RespBody) : UploadResult :=
  if statusCode == statusCreated || statusCode == statusOK then
    match decodeDeployResponse body with
    | some r => .ok r
    | none => .err "failed to parse response"
  else
    match decodeErrorResponse body with
    | some e => .err (formatAPIError e)
    | none => .err ("API error (status " ++ toString statusCode ++ "): " ++ body.raw)

/-! ## Environment overrides (`envPairsToJSON`) and the multipart form -/

/-- `strings.Index(p, "=")` with the source's `idx <= 0` guard: a pair with no
equals sign, or one starting with it, contributes nothing; otherwise the pair
is split at its first equals sign, so values may contain further ones. -/
def goSplitPair (p : String) : Option (String × String) :=
  match p.data.findIdx? (· == '=') with
  | none => none
  | some 0 => none
  | some i => some (String.mk (p.data.take i), String.mk (p.data.drop (i + 1)))

/-- Assignment `m[k] = v` on the association-list model of the Go map: an
existing binding of the key is replaced, otherwise the binding is added. -/
def envUpsert (m : List (String × String)) (k v : String) : List (String × String) :=
  if m.any fun kv => kv.1 == k then
    m.map fun kv => if kv.1 == k then (k, v) else kv
  else m ++ [(k, v)]

/-- The loop of `envPairsToJSON`: fold the pairs left to right into the map,
so a later pair with the same key overwrites an earlier one. -/
def buildEnvMap (pairs : List String) : List (String × String) :=
  pairs.foldl
    (fun m p =>
      match goSplitPair p with
      | none => m
      | some kv => envUpsert m kv.1 kv.2)
    []

def lookupVal : List (String × String) → String → Option String
  | [], _ => none
  | kv :: rest, k => if kv.1 == k then some kv.2 else lookupVal rest k

/-- Lexicographic string order by code point; UTF-8 byte order, which
`json.Marshal` sorts map keys by, coincides with it. -/
def charListLe : List Char → List Char → Bool
  | [], _ => true
  | _ :: _, [] => false
  | a :: as, b :: bs =>
    if a.toNat < b.toNat then true
    else if b.toNat < a.toNat then false
    else charListLe as bs

def strLe (a b : String) : Bool := charListLe a.data b.data

/-- Insertion into a key-sorted association list. -/
def insertSorted (kv : String × String) : List (String × String) → List (String × String)
  | [] => [kv]
  | x :: xs => if strLe kv.1 x.1 then kv :: x :: xs else x :: insertSorted kv xs

/-- `json.Marshal` emits map keys in sorted order. -/
def sortPairs : List (String × String) → List (String × String)
  | [] => []
  | x :: xs => insertSorted x (sortPairs xs)

def hexDigitChar (n : Nat) : Char := "0123456789abcdef".data.getD n '0'

/-- The string escaping of `encoding/json` (HTML escaping on, as under
`json.Marshal`): quote, backslash, the short control escapes, other control
characters as `\u00xx`, the HTML-sensitive characters, and the two Unicode
line separators. -/
def jsonEscapeChar (c : Char) : String :=
  if c = '"' then "\\\""
  else if c = '\\' then "\\\\"
  else if c = '\n' then "\\n"
  else if c = '\r' then "\\r"
  else if c = '\t' then "\\t"
  else if c = '<' then "\\u003c"
  else if c = '>' then "\\u003e"
  else if c = '&' then "\\u0026"
  else if c.toNat < 32 then
    "\\u00" ++ String.mk [hexDigitChar (c.toNat / 16), hexDigitChar (c.toNat % 16)]
  else if c = ' ' then "\\u2028"
  else if c = ' ' then "\\u2029"
  else String.singleton c

def jsonQuote (s : String) : String :=
  "\"" ++ concatAll (s.data.map jsonEscapeChar) ++ "\""

/-- `json.Marshal` on a string-keyed map: one object, keys sorted. -/
def marshalStringMap (m : List (String × String)) : String :=
  "\x7b" ++
    String.intercalate ","
      ((sortPairs m).map fun kv => jsonQuote kv.1 ++ ":" ++ jsonQuote kv.2) ++
    "\x7d"

/-- `envPairsToJSON`: empty input or a map with no valid pair yields the
empty string (and hence no `env_vars` field); otherwise the single JSON
object text. -/
def envPairsToJSON (pairs : List String) : String :=
  if pairs.isEmpty then ""
  else
    let m := buildEnvMap pairs
    if m.isEmpty then "" else marshalStringMap m

/-- The claim-side key semantics: the value of the last pair carrying the
key, each pair split at its first equals sign. -/
def lastPairValue (pairs : List String) (k : String) : Option String :=
  pairs.foldl
    (fun acc p =>
      match goSplitPair p with
      | none => acc
      | some kv => if kv.1 == k then some kv.2 else acc)
    none

/-- One part of the multipart form body built by `upload`. -/
inductive FormPart where
  | filePart (field filename : String) (content : List Nat)
  | textField (field value : String)
deriving Repr, DecidableEq

def FormPart.fieldName : FormPart → String
  | .filePart n _ _ => n
  | .textField n _ => n

/-- The multipart form `upload` assembles, in source order: the archive under
the fixed synthetic filename `app.tar.gz`, then each optional text field only
when its value is present (`force` as the literal `"true"`). -/
def buildFormParts (archive : List Nat) (appName : String) (force : Bool)
    (envPairs : List String) (cpu memory port : String) : List FormPart :=
  [FormPart.filePart "archive" "app.tar.gz" archive]
    ++ (if force then [FormPart.textField "force" "true"] else [])
    ++ (if appName ≠ "" then [FormPart.textField "app_name" appName] else [])
    ++ (if envPairsToJSON envPairs ≠ "" then
          [FormPart.textField "env_vars" (envPairsToJSON envPairs)] else [])
    ++ (if cpu ≠ "" then [FormPart.textField "cpu" cpu] else [])
    ++ (if memory ≠ "" then [FormPart.textField "memory" memory] else [])
    ++ (if port ≠ "" then [FormPart.textField "port" port] else [])

/-! ## The pipeline `Run` -/

/-- The 50 MB ceiling of the size gate. -/
def maxArchiveBytes : Nat := 50 * 1024 * 1024

/-- The size-gate error text: the archive length integer-divided down to
whole mebibytes. -/
def sizeErrMsg (n : Nat) : String :=
  "archive size (" ++ toString (n / (1024 * 1024)) ++ " MB) exceeds 50 MB limit"

/-- Externally visible actions of one pipeline run, in order. -/
inductive Event where
  | archiveBuilt
  | sizeChecked
  | networkRequest (parts : List FormPart)
deriving Repr, DecidableEq

def Event.isNetwork : Event → Bool
  | .networkRequest _ => true
  | _ => false

inductive RunOutcome where
  | buildError (msg : String)
  | sizeError (msg : String)
  | uploadResult (r : UploadResult)
deriving Repr, DecidableEq

/-- `Run`: archive creation, then the size gate, then — only when the gate
passes — the single network request of `upload` carrying the multipart form,
whose response is interpreted by `handleResponse`. The archive build outcome
and the remote response are inputs of the model; the event list records what
the run did, in order. -/
def Run (build : Except String (List Nat)) (appName : String) (force : Bool)
    (env : List String) (cpu memory port : String)
    (respStatus : Nat) (respBody : RespBody) : List Event × RunOutcome :=
  match build with
  | Except.error e => ([], RunOutcome.buildError ("failed to create archive: " ++ e))
  | Except.ok archive =>
    if archive.length > maxArchiveBytes then
      ([Event.archiveBuilt, Event.sizeChecked],
       RunOutcome.sizeError (sizeErrMsg archive.length))
    else
      ([Event.archiveBuilt, Event.sizeChecked,
        Event.networkRequest (buildFormParts archive appName force env cpu memory port)],
       RunOutcome.uploadResult (handleResponse respStatus respBody))

/-! ## Lemmas about the walk and the exclusion filter -/

theorem mkEntry_name (sep : Char) (segs : List String) (n : FSNode) :
    (mkEntry sep segs n).name = joinPath sep segs := by
  cases n <;> rfl

theorem shouldExclude_info_irrel (sep : Char) (relPath : String) (info : FileInfo) :
    shouldExclude sep relPath info = shouldExclude sep relPath anyInfo := rfl

/-- Propositional version of `pathClear`. -/
def PathClearP (sep : Char) (segs : List String) : Prop :=
  ∀ i < segs.length, shouldExclude sep (joinPath sep (segs.take (i + 1))) anyInfo = false

theorem pathClear_iff (sep : Char) (segs : List String) :
    pathClear sep segs = true ↔ PathClearP sep segs := by
  simp [pathClear, PathClearP, List.all_eq_true, List.mem_range]

theorem take_full_append (xs : List String) (x : String) :
    (xs ++ [x]).take (xs.length + 1) = xs ++ [x] := by
  have h : (xs ++ [x]).length = xs.length + 1 := by simp
  rw [← h, List.take_length]

theorem pathClearP_append (sep : Char) (xs : List String) (x : String) :
    PathClearP sep (xs ++ [x]) ↔
      PathClearP sep xs ∧ shouldExclude sep (joinPath sep (xs ++ [x])) anyInfo = false := by
  unfold PathClearP
  constructor
  · intro h
    refine ⟨fun i hi => ?_, ?_⟩
    · have hx := h i (by simp; omega)
      rwa [List.take_append_of_le_length (by omega)] at hx
    · have hx := h xs.length (by simp)
      rwa [take_full_append] at hx
  · rintro ⟨h1, h2⟩ i hi
    rcases Nat.lt_or_ge i xs.length with h | h
    · rw [List.take_append_of_le_length (by omega)]
      exact h1 i h
    · have hieq : i = xs.length := by simp at hi; omega
      subst hieq
      rwa [take_full_append]

theorem forestNodes_extends (q : List String) (ts : List FSNode) :
    ∀ pn ∈ forestNodes q ts, ∃ s, s ≠ [] ∧ pn.1 = q ++ s := by
  intro pn hpn
  match ts with
  | [] => simp [forestNodes] at hpn
  | FSNode.file fn c :: rest =>
    simp only [forestNodes, FSNode.name, List.mem_cons] at hpn
    rcases hpn with h | h
    · exact ⟨[fn], by simp, by simp [h]⟩
    · exact forestNodes_extends q rest pn h
  | FSNode.symlink sn t :: rest =>
    simp only [forestNodes, FSNode.name, List.mem_cons] at hpn
    rcases hpn with h | h
    · exact ⟨[sn], by simp, by simp [h]⟩
    · exact forestNodes_extends q rest pn h
  | FSNode.dir dn cs :: rest =>
    simp only [forestNodes, List.mem_cons, List.mem_append] at hpn
    rcases hpn with h | h | h
    · exact ⟨[dn], by simp, by simp [h]⟩
    · obtain ⟨s, hs, hps⟩ := forestNodes_extends (q ++ [dn]) cs pn h
      exact ⟨[dn] ++ s, by simp, by simp [hps]⟩
    · exact forestNodes_extends q rest pn h
termination_by sizeOf ts
decreasing_by all_goals simp_wf <;> omega

/-- A rule-free path is in particular rule-free at its own full length. -/
theorem shouldExclude_false_of_clear (sep : Char) (p : List String)
    (hp : p ≠ []) (h : PathClearP sep p) :
    shouldExclude sep (joinPath sep p) anyInfo = false := by
  have hlen : 0 < p.length := List.length_pos.mpr hp
  have hx := h (p.length - 1) (by omega)
  have : p.length - 1 + 1 = p.length := by omega
  rwa [this, List.take_length] at hx

/-- A path strictly below a rule-matching path is not clear. -/
theorem not_clear_of_excluded_ancestor (sep : Char) (q s : List String)
    (hq : q ≠ []) (hs : s ≠ [])
    (hex : shouldExclude sep (joinPath sep q) anyInfo = true) :
    pathClear sep (q ++ s) = false := by
  rw [← Bool.not_eq_true, pathClear_iff]
  intro h
  have hlenq : 0 < q.length := List.length_pos.mpr hq
  have hlens : 0 < s.length := List.length_pos.mpr hs
  have hx := h (q.length - 1) (by simp; omega)
  have h1 : q.length - 1 + 1 = q.length := by omega
  rw [h1, List.take_append_of_le_length (le_refl _), List.take_length] at hx
  rw [hex] at hx
  exact absurd hx (by simp)

/-- The walk equals the specification-side archive: it keeps, in order,
exactly the nodes whose own relative path and all ancestor paths are free of
exclusion-rule matches. -/
theorem walk_eq_spec (sep : Char) (pre : List String) (ts : List FSNode)
    (H : PathClearP sep pre) :
    walkForest sep pre ts =
      ((forestNodes pre ts).filter fun pn => pathClear sep pn.1).map fun pn =>
        mkEntry sep pn.1 pn.2 := by
  match ts with
  | [] => simp [walkForest, forestNodes]
  | FSNode.file fn c :: rest =>
    have ih := walk_eq_spec sep pre rest H
    by_cases hex : shouldExclude sep (joinPath sep (pre ++ [fn])) anyInfo = true
    · have hclear : pathClear sep (pre ++ [fn]) = false := by
        rw [← Bool.not_eq_true, pathClear_iff, pathClearP_append]
        rintro ⟨-, h2⟩
        rw [hex] at h2
        exact absurd h2 (by simp)
      simp [walkForest, forestNodes, FSNode.name, FSNode.info, shouldExclude_info_irrel, hex, hclear, ih]
    · rw [Bool.not_eq_true] at hex
      have hclear : pathClear sep (pre ++ [fn]) = true := by
        rw [pathClear_iff, pathClearP_append]
        exact ⟨H, hex⟩
      simp [walkForest, forestNodes, FSNode.name, FSNode.info, shouldExclude_info_irrel, hex, hclear, ih]
  | FSNode.symlink sn t :: rest =>
    have ih := walk_eq_spec sep pre rest H
    by_cases hex : shouldExclude sep (joinPath sep (pre ++ [sn])) anyInfo = true
    · have hclear : pathClear sep (pre ++ [sn]) = false := by
        rw [← Bool.not_eq_true, pathClear_iff, pathClearP_append]
        rintro ⟨-, h2⟩
        rw [hex] at h2
        exact absurd h2 (by simp)
      simp [walkForest, forestNodes, FSNode.name, FSNode.info, shouldExclude_info_irrel, hex, hclear, ih]
    · rw [Bool.not_eq_true] at hex
      have hclear : pathClear sep (pre ++ [sn]) = true := by
        rw [pathClear_iff, pathClearP_append]
        exact ⟨H, hex⟩
      simp [walkForest, forestNodes, FSNode.name, FSNode.info, shouldExclude_info_irrel, hex, hclear, ih]
  | FSNode.dir dn cs :: rest =>
    have ih := walk_eq_spec sep pre rest H
    by_cases hex : shouldExclude sep (joinPath sep (pre ++ [dn])) anyInfo = true
    · have hclear : pathClear sep (pre ++ [dn]) = false := by
        rw [← Bool.not_eq_true, pathClear_iff, pathClearP_append]
        rintro ⟨-, h2⟩
        rw [hex] at h2
        exact absurd h2 (by simp)
      have hmid : (forestNodes (pre ++ [dn]) cs).filter
          (fun pn => pathClear sep pn.1) = [] := by
        rw [List.filter_eq_nil_iff]
        intro pn hpn
        obtain ⟨s, hs, hps⟩ := forestNodes_extends (pre ++ [dn]) cs pn hpn
        rw [hps, not_clear_of_excluded_ancestor sep (pre ++ [dn]) s (by simp) hs hex]
        simp
      simp [walkForest, forestNodes, FSNode.info, shouldExclude_info_irrel, hex, hclear, ih, hmid]
    · rw [Bool.not_eq_true] at hex
      have Hc : PathClearP sep (pre ++ [dn]) := by
        rw [pathClearP_append]
        exact ⟨H, hex⟩
      have hclear : pathClear sep (pre ++ [dn]) = true := by
        rw [pathClear_iff]; exact Hc
      have ihc := walk_eq_spec sep (pre ++ [dn]) cs Hc
      simp [walkForest, forestNodes, FSNode.info, shouldExclude_info_irrel, hex, hclear, ih, ihc]
termination_by sizeOf ts
decreasing_by all_goals simp_wf <;> omega

/-- `shouldExclude` returning `false` says precisely: no name rule matches
the base name, no name rule is a leading run of the path followed by the
separator, and the lower-cased extension matches no extension rule. -/
theorem shouldExclude_false_iff (sep : Char) (rel : String) :
    shouldExclude sep rel anyInfo = false ↔
      (∀ ex ∈ excludedPaths,
        stringBase sep rel ≠ ex ∧ strStartsWith rel (ex.push sep) = false)
      ∧ (∀ ex ∈ excludedExtensions, strToLower (stringExt sep rel) ≠ ex) := by
  simp only [shouldExclude, Bool.or_eq_false_iff, List.any_eq_false,
    Bool.or_eq_true, not_or, beq_iff_eq, Bool.not_eq_true, ne_eq]

theorem pathClearP_nil (sep : Char) : PathClearP sep [] := by
  intro i hi
  simp at hi

/-- The characterization instantiated at the root. -/
theorem createArchive_eq_spec (sep : Char) (root : List FSNode) :
    createArchive sep root = specArchive sep root :=
  walk_eq_spec sep [] root (pathClearP_nil sep)

/-- C1: every archive entry's relative path survives all three exclusion
conditions; the archive is exactly the walk-ordered filter of the tree by
path-clearness (so a matching file is dropped without affecting any other
entry); and every node strictly below a rule-matching directory fails the
filter, so no descendant of such a directory appears. -/
theorem c1_exclusion_rules (sep : Char) (root : List FSNode) :
    createArchive sep root = specArchive sep root
    ∧ (∀ e ∈ createArchive sep root,
        (∀ ex ∈ excludedPaths,
          stringBase sep e.name ≠ ex ∧ strStartsWith e.name (ex.push sep) = false)
        ∧ (∀ ex ∈ excludedExtensions, strToLower (stringExt sep e.name) ≠ ex))
    ∧ (∀ pn ∈ forestNodes [] root, (pn.2 : FSNode).info.isDir = true →
        shouldExclude sep (joinPath sep pn.1) anyInfo = true →
        ∀ pn' ∈ forestNodes [] root, pn'.1 ≠ pn.1 →
          (∃ s, pn'.1 = pn.1 ++ s) → pathClear sep pn'.1 = false) := by
  refine ⟨createArchive_eq_spec sep root, ?_, ?_⟩
  · intro e he
    have he' : e ∈ specArchive sep root := by
      rwa [createArchive_eq_spec sep root] at he
    simp only [specArchive, List.mem_map, List.mem_filter] at he'
    obtain ⟨pn, ⟨hmem, hpc⟩, rfl⟩ := he'
    obtain ⟨s, hs, hps⟩ := forestNodes_extends [] root pn hmem
    have hnonempty : pn.1 ≠ [] := by
      rw [hps]
      simpa using hs
    have hfalse : shouldExclude sep (joinPath sep pn.1) anyInfo = false :=
      shouldExclude_false_of_clear sep pn.1 hnonempty ((pathClear_iff sep pn.1).mp hpc)
    rw [mkEntry_name]
    exact (shouldExclude_false_iff sep (joinPath sep pn.1)).mp hfalse
  · rintro pn hpn - hex pn' hpn' hne ⟨s, hs⟩
    obtain ⟨s0, hs0, hps0⟩ := forestNodes_extends [] root pn hpn
    have hqne : pn.1 ≠ [] := by
      rw [hps0]
      simpa using hs0
    have hsne : s ≠ [] := by
      intro h
      rw [h, List.append_nil] at hs
      exact hne hs
    rw [hs]
    exact not_clear_of_excluded_ancestor sep pn.1 s hqne hsne hex

/-- A directory tree exercising C1: a matching directory (`.git`), a
matching file (`id_rsa`), and a retained file. -/
def demoTree1 : List FSNode :=
  [FSNode.dir ".git" [FSNode.file "config" [99]],
   FSNode.file "id_rsa" [1],
   FSNode.file "app.go" [60]]

theorem c1_exclusion_rules_witness :
    (createArchive '/' demoTree1 = specArchive '/' demoTree1)
    ∧ stringBase '/' "app.go" ≠ ".git"
    ∧ pathClear '/' [".git", "config"] = false := by
  refine ⟨(c1_exclusion_rules '/' demoTree1).1, ?_, ?_⟩
  · exact ((((c1_exclusion_rules '/' demoTree1).2.1
      ⟨"app.go", EntryKind.regular, "", [60]⟩
      (by simp +decide [createArchive, demoTree1, walkForest, mkEntry, joinPath])).1
      ".git" (by decide)).1)
  · exact (c1_exclusion_rules '/' demoTree1).2.2
      ([".git"], FSNode.dir ".git" [FSNode.file "config" [99]])
      (by simp +decide [forestNodes, demoTree1])
      rfl
      (by decide)
      ([".git", "config"], FSNode.file "config" [99])
      (by simp +decide [forestNodes, demoTree1, FSNode.name])
      (by decide)
      ⟨["config"], rfl⟩

/-- C10: the exclusion decision depends only on the relative path; the
file-metadata argument of `shouldExclude` is never consulted, so any two
metadata values (in particular a file and a directory at the same relative
path) give the same result. -/
theorem c10_metadata_independent (sep : Char) (relPath : String) (i1 i2 : FileInfo) :
    shouldExclude sep relPath i1 = shouldExclude sep relPath i2 := rfl

/-- C3: every symbolic-link entry of the archive carries zero content bytes,
and its recorded link target is exactly the target string of a symlink node
of the tree at the entry's relative path — the dereferenced target's content
is never written. -/
theorem c3_symlink_entries (sep : Char) (root : List FSNode) :
    ∀ e ∈ createArchive sep root, e.kind = EntryKind.symlink →
      e.content = []
      ∧ ∃ p nm, (p, FSNode.symlink nm e.linkname) ∈ forestNodes [] root
          ∧ e.name = joinPath sep p := by
  intro e he hk
  have he' : e ∈ specArchive sep root := by
    rwa [createArchive_eq_spec sep root] at he
  simp only [specArchive, List.mem_map, List.mem_filter] at he'
  obtain ⟨pn, ⟨hmem, hpc⟩, rfl⟩ := he'
  obtain ⟨p, n⟩ := pn
  cases n with
  | file nm c => simp [mkEntry] at hk
  | dir nm cs => simp [mkEntry] at hk
  | symlink nm t => exact ⟨rfl, p, nm, hmem, mkEntry_name _ _ _⟩

/-- A tree with one symbolic link. -/
def demoTree3 : List FSNode := [FSNode.symlink "ln" "target.txt"]

theorem c3_symlink_entries_witness :
    (⟨"ln", EntryKind.symlink, "target.txt", []⟩ : ArchiveEntry).content = ([] : List Nat)
    ∧ ∃ p nm,
        (p, FSNode.symlink nm
            (⟨"ln", EntryKind.symlink, "target.txt", []⟩ : ArchiveEntry).linkname)
          ∈ forestNodes [] demoTree3
        ∧ (⟨"ln", EntryKind.symlink, "target.txt", []⟩ : ArchiveEntry).name
            = joinPath '/' p :=
  c3_symlink_entries '/' demoTree3 ⟨"ln", EntryKind.symlink, "target.txt", []⟩
    (by simp +decide [createArchive, demoTree3, walkForest, mkEntry, joinPath]) rfl

/-- A two-level tree for the entry-name claims. -/
def demoTree9 : List FSNode := [FSNode.dir "a" [FSNode.file "b" [7]]]

/-- C9 counterexample: on a host whose path separator is a backslash, the
nested entry is named `a\b` — the relative path joined with the host
separator — not the forward-slash form `a/b`; no slash conversion is
performed on `header.Name`. -/
theorem c9_counterexample :
    ((createArchive '\\' demoTree9).map ArchiveEntry.name) = ["a", "a\\b"]
    ∧ ("a\\b" : String) ≠ "a/b"
    ∧ '/' ∉ ("a\\b" : String).data := by
  refine ⟨?_, by decide, by decide⟩
  simp +decide [createArchive, demoTree9, walkForest, mkEntry, joinPath]

/-- C9 amended: every entry name is the entry's root-relative segment path
joined with the host path separator (hence forward slashes exactly on hosts
whose separator is `/`). -/
theorem c9_amended_entry_names (sep : Char) (root : List FSNode) :
    ∀ e ∈ createArchive sep root,
      ∃ pn ∈ forestNodes [] root,
        e = mkEntry sep pn.1 pn.2 ∧ e.name = joinPath sep pn.1 := by
  intro e he
  have he' : e ∈ specArchive sep root := by
    rwa [createArchive_eq_spec sep root] at he
  simp only [specArchive, List.mem_map, List.mem_filter] at he'
  obtain ⟨pn, ⟨hmem, -⟩, rfl⟩ := he'
  exact ⟨pn, hmem, rfl, mkEntry_name _ _ _⟩

theorem c9_amended_entry_names_witness :
    ∃ pn ∈ forestNodes [] demoTree9,
      (⟨"a/b", EntryKind.regular, "", [7]⟩ : ArchiveEntry) = mkEntry '/' pn.1 pn.2
      ∧ (⟨"a/b", EntryKind.regular, "", [7]⟩ : ArchiveEntry).name = joinPath '/' pn.1 :=
  c9_amended_entry_names '/' demoTree9 ⟨"a/b", EntryKind.regular, "", [7]⟩
    (by simp +decide [createArchive, demoTree9, walkForest, mkEntry, joinPath])

/-! ## Lemmas and claims about response interpretation -/

theorem concatAll_append (xs ys : List String) :
    concatAll (xs ++ ys) = concatAll xs ++ concatAll ys := by
  induction xs with
  | nil => rfl
  | cons x rest ih =>
    simp only [List.cons_append, concatAll, List.foldr_cons] at *
    rw [ih, String.append_assoc]

theorem foldl_detailLine (l : List ValidationError) (init : String) :
    l.foldl
      (fun m d =>
        let m' := m ++ "\n  - " ++ d.field ++ ": " ++ d.error
        if d.suggestion ≠ "" then m' ++ "\n    Suggestion: " ++ d.suggestion else m')
      init
    = init ++ concatAll (l.map detailLine) := by
  induction l generalizing init with
  | nil => simp [concatAll, String.append_empty]
  | cons d rest ih =>
    simp only [List.foldl_cons, List.map_cons]
    rw [ih]
    have hstep :
        (let m' := init ++ "\n  - " ++ d.field ++ ": " ++ d.error
         if d.suggestion ≠ "" then m' ++ "\n    Suggestion: " ++ d.suggestion else m')
        = init ++ detailLine d := by
      by_cases h : d.suggestion = ""
      · simp [detailLine, h, String.append_empty, String.append_assoc]
      · simp [detailLine, h, String.append_assoc]
    rw [hstep]
    have hcons : concatAll (detailLine d :: rest.map detailLine)
        = detailLine d ++ concatAll (rest.map detailLine) := rfl
    rw [hcons, String.append_assoc]

theorem formatAPIError_eq_spec (e : ErrorResponse) :
    formatAPIError e = specErrorRender e := by
  unfold formatAPIError specErrorRender
  by_cases h : e.error.details = []
  · simp [h, String.append_empty]
  · have hlen : 0 < e.error.details.length := List.length_pos.mpr h
    rw [if_pos hlen, if_neg h, foldl_detailLine, String.append_assoc]

/-- The spec's HTTP 422 scenario body, decoded. -/
def ex422 : ErrorResponse :=
  ⟨"error", ⟨"VALIDATION_FAILED", "invalid port", [⟨"port", "out of range", ""⟩], "", ""⟩⟩

/-- C6: the rendered message is the code, colon-space, the message, then one
line per validation detail in received order with its field name and problem
text and any nonempty suggestion appended; on the documented HTTP 422 body
the message begins `VALIDATION_FAILED: invalid port` and includes a line
carrying `port: out of range`. -/
theorem c6_error_rendering (e : ErrorResponse) :
    formatAPIError e = specErrorRender e
    ∧ (∃ t, formatAPIError e = (e.error.code ++ ": " ++ e.error.message) ++ t)
    ∧ (∀ d ∈ e.error.details,
        ∃ a b, formatAPIError e = a ++ ("\n  - " ++ d.field ++ ": " ++ d.error) ++ b)
    ∧ formatAPIError ex422
        = "VALIDATION_FAILED: invalid port\n\nDetails:\n  - port: out of range"
    ∧ (∃ t, formatAPIError ex422 = "VALIDATION_FAILED: invalid port" ++ t)
    ∧ (∃ a b, formatAPIError ex422 = a ++ "port: out of range" ++ b) := by
  refine ⟨formatAPIError_eq_spec e, ?_, ?_, by decide,
    ⟨"\n\nDetails:\n  - port: out of range", by decide⟩,
    ⟨"VALIDATION_FAILED: invalid port\n\nDetails:\n  - ", "", by decide⟩⟩
  · refine ⟨if e.error.details = [] then ""
      else "\n\nDetails:" ++ concatAll (e.error.details.map detailLine), ?_⟩
    rw [formatAPIError_eq_spec]
    rfl
  · intro d hd
    have hne : e.error.details ≠ [] := by
      rintro h
      rw [h] at hd
      simp at hd
    obtain ⟨l1, l2, hsplit⟩ := List.append_of_mem hd
    refine ⟨(e.error.code ++ ": " ++ e.error.message)
        ++ ("\n\nDetails:" ++ concatAll (l1.map detailLine)),
      (if d.suggestion ≠ "" then "\n    Suggestion: " ++ d.suggestion else "")
        ++ concatAll (l2.map detailLine), ?_⟩
    rw [formatAPIError_eq_spec]
    unfold specErrorRender
    rw [if_neg hne, hsplit, List.map_append, concatAll_append, List.map_cons]
    have hcons : concatAll (detailLine d :: l2.map detailLine)
        = detailLine d ++ concatAll (l2.map detailLine) := rfl
    rw [hcons]
    simp [detailLine, String.append_assoc]

theorem c6_error_rendering_witness :
    ∃ a b, formatAPIError ex422
      = a ++ ("\n  - " ++ ("port" : String) ++ ": " ++ ("out of range" : String)) ++ b :=
  (c6_error_rendering ex422).2.2.1 ⟨"port", "out of range", ""⟩ (by decide)

/-- The spec's HTTP 201 scenario body. -/
def ex201Body : RespBody :=
  RespBody.parsed "the documented 201 success body" (Json.obj
    [("status", Json.str "created"),
     ("deployment", Json.obj
       [("id", Json.str "d1"), ("alias", Json.str "app1"),
        ("url", Json.str "https://app1.example"), ("status", Json.str "building")])])

def ex201Record : DeployResponse :=
  ⟨"created", ⟨"d1", "app1", "https://app1.example", "building", "", "", "", "", none⟩⟩

/-- C4: a `201 Created` or `200 OK` response is decoded as a
`DeployResponse` (never as an error body), every other status is decoded as
a structured `ErrorResponse` when the body has that shape; the documented
201 body yields the record with alias `app1` and status `building`. -/
theorem c4_response_classification (statusCode : Nat) (body : RespBody) :
    ((statusCode = statusCreated ∨ statusCode = statusOK) →
      (∀ r, decodeDeployResponse body = some r →
        handleResponse statusCode body = UploadResult.ok r)
      ∧ (decodeDeployResponse body = none →
          handleResponse statusCode body = UploadResult.err "failed to parse response"))
    ∧ (statusCode ≠ statusCreated → statusCode ≠ statusOK →
        ∀ er, decodeErrorResponse body = some er →
          handleResponse statusCode body = UploadResult.err (formatAPIError er))
    ∧ handleResponse statusCreated ex201Body = UploadResult.ok ex201Record
    ∧ ex201Record.deployment.aliasName = "app1"
    ∧ ex201Record.deployment.status = "building" := by
  refine ⟨?_, ?_, by decide, rfl, rfl⟩
  · intro h
    have hcond : (statusCode == statusCreated || statusCode == statusOK) = true := by
      rcases h with h | h <;> simp [h]
    exact ⟨fun r hr => by simp [handleResponse, hcond, hr],
      fun hn => by simp [handleResponse, hcond, hn]⟩
  · intro h1 h2 er her
    have hc1 : (statusCode == statusCreated) = false := by
      simpa using h1
    have hc2 : (statusCode == statusOK) = false := by
      simpa using h2
    simp [handleResponse, hc1, hc2, her]

theorem c4_response_classification_witness :
    handleResponse 201 ex201Body = UploadResult.ok ex201Record :=
  ((c4_response_classification 201 ex201Body).1 (Or.inl rfl)).1 ex201Record (by decide)

/-- C5: when the status is not `201 Created` or `200 OK` and the body does
not decode as the structured error shape, the returned error carries the raw
status code and the raw body verbatim. -/
theorem c5_raw_error_surfaced (statusCode : Nat) (body : RespBody)
    (h1 : statusCode ≠ statusCreated) (h2 : statusCode ≠ statusOK)
    (h3 : decodeErrorResponse body = none) :
    handleResponse statusCode body =
      UploadResult.err ("API error (status " ++ toString statusCode ++ "): " ++ body.raw) := by
  have hc1 : (statusCode == statusCreated) = false := by
    simpa using h1
  have hc2 : (statusCode == statusOK) = false := by
    simpa using h2
  simp [handleResponse, hc1, hc2, h3]

theorem c5_raw_error_surfaced_witness :
    handleResponse 500 (RespBody.invalid "stray upstream html") =
      UploadResult.err "API error (status 500): stray upstream html" :=
  (c5_raw_error_surfaced 500 (RespBody.invalid "stray upstream html")
    (by decide) (by decide) rfl).trans (by decide)

/-! ## Claims about the pipeline `Run` -/

/-- C2: when the built archive exceeds the 50 MB ceiling, `Run` returns the
size-limit error and its trace holds no network request; and in every run,
a network request can only be the third event, strictly after the archive
build and the size check. -/
theorem c2_size_gate (build : Except String (List Nat)) (appName : String)
    (force : Bool) (env : List String) (cpu memory port : String)
    (respStatus : Nat) (respBody : RespBody) :
    (∀ archive, build = Except.ok archive → maxArchiveBytes < archive.length →
      (Run build appName force env cpu memory port respStatus respBody).2
          = RunOutcome.sizeError (sizeErrMsg archive.length)
      ∧ ∀ ev ∈ (Run build appName force env cpu memory port respStatus respBody).1,
          ev.isNetwork = false)
    ∧ (∀ ev ∈ (Run build appName force env cpu memory port respStatus respBody).1,
        ev.isNetwork = true →
          (Run build appName force env cpu memory port respStatus respBody).1
            = [Event.archiveBuilt, Event.sizeChecked, ev]) := by
  constructor
  · rintro archive rfl hlen
    have hgt : archive.length > maxArchiveBytes := hlen
    refine ⟨by simp [Run, hgt], ?_⟩
    intro ev hev
    simp [Run, hgt] at hev
    rcases hev with rfl | rfl <;> rfl
  · intro ev hev hnet
    rcases build with e | archive
    · simp [Run] at hev
    · by_cases hgt : archive.length > maxArchiveBytes
      · simp [Run, hgt] at hev
        rcases hev with rfl | rfl <;> simp [Event.isNetwork] at hnet
      · simp [Run, hgt] at hev
        rcases hev with rfl | rfl | rfl
        · simp [Event.isNetwork] at hnet
        · simp [Event.isNetwork] at hnet
        · simp [Run, hgt]

theorem c2_size_gate_witness :
    (Run (Except.ok (List.replicate 52428900 0)) "app" false [] "" "" "" 201
        (RespBody.invalid "")).2
      = RunOutcome.sizeError (sizeErrMsg 52428900)
    ∧ ∀ ev ∈ (Run (Except.ok (List.replicate 52428900 0)) "app" false [] "" "" "" 201
        (RespBody.invalid "")).1, ev.isNetwork = false := by
  have h := (c2_size_gate (Except.ok (List.replicate 52428900 0)) "app" false [] "" "" ""
    201 (RespBody.invalid "")).1 (List.replicate 52428900 0) rfl
    (by rw [List.length_replicate]; norm_num [maxArchiveBytes])
  rw [List.length_replicate] at h
  exact h

/-- The size-gate branch of `Run`, stated symbolically. -/
theorem run_snd_oversized (archive : List Nat) (appName : String) (force : Bool)
    (env : List String) (cpu memory port : String) (respStatus : Nat)
    (respBody : RespBody) (h : maxArchiveBytes < archive.length) :
    (Run (Except.ok archive) appName force env cpu memory port respStatus respBody).2
      = RunOutcome.sizeError (sizeErrMsg archive.length) := by
  simp [Run, h]

/-- C7 counterexample: the size-limit error reports the archive length
integer-divided down to whole mebibytes, not the true byte size: two
oversized archives of different byte sizes (52428801 and 52428802 bytes)
produce the identical message `archive size (50 MB) exceeds 50 MB limit`,
so the stated size cannot equal the true byte size. -/
theorem c7_counterexample :
    (Run (Except.ok (List.replicate 52428801 0)) "app" false [] "" "" "" 200
        (RespBody.invalid "")).2
      = RunOutcome.sizeError "archive size (50 MB) exceeds 50 MB limit"
    ∧ sizeErrMsg 52428801 = sizeErrMsg 52428802
    ∧ (52428801 : Nat) ≠ 52428802
    ∧ (52428801 : Nat) / (1024 * 1024) = 50
    ∧ 50 * (1024 * 1024) ≠ (52428801 : Nat) := by
  refine ⟨?_, by decide, by decide, by decide, by decide⟩
  rw [run_snd_oversized (List.replicate 52428801 0) "app" false [] "" "" "" 200
    (RespBody.invalid "") (by rw [List.length_replicate]; norm_num [maxArchiveBytes])]
  rw [List.length_replicate]
  decide

/-- C7 amended: for every oversized archive the size-limit error reports the
archive's byte size integer-divided by 1024·1024 (whole mebibytes) against
the 50 MB limit. -/
theorem c7_amended_size_report (build : Except String (List Nat)) (appName : String)
    (force : Bool) (env : List String) (cpu memory port : String)
    (respStatus : Nat) (respBody : RespBody) (archive : List Nat)
    (h1 : build = Except.ok archive) (h2 : maxArchiveBytes < archive.length) :
    (Run build appName force env cpu memory port respStatus respBody).2
      = RunOutcome.sizeError
          ("archive size (" ++ toString (archive.length / (1024 * 1024))
            ++ " MB) exceeds 50 MB limit") := by
  subst h1
  simp [Run, h2, sizeErrMsg]

theorem c7_amended_size_report_witness :
    (Run (Except.ok (List.replicate 52428801 0)) "a" true [] "" "" "" 422
        (RespBody.invalid "x")).2
      = RunOutcome.sizeError "archive size (50 MB) exceeds 50 MB limit" := by
  have h := c7_amended_size_report (Except.ok (List.replicate 52428801 0)) "a" true []
    "" "" "" 422 (RespBody.invalid "x") (List.replicate 52428801 0) rfl
    (by rw [List.length_replicate]; norm_num [maxArchiveBytes])
  rw [h, List.length_replicate]
  decide

/-! ## Lemmas about the environment-override map -/

theorem lookupVal_eq_none (m : List (String × String)) (k : String)
    (h : ∀ kv ∈ m, kv.1 ≠ k) : lookupVal m k = none := by
  induction m with
  | nil => rfl
  | cons kv rest ih =>
    have h1 : (kv.1 == k) = false := beq_eq_false_iff_ne.mpr (h kv (by simp))
    simp only [lookupVal, h1, Bool.false_eq_true, if_false]
    exact ih fun x hx => h x (List.mem_cons_of_mem _ hx)

theorem lookupVal_append (a b : List (String × String)) (k : String) :
    lookupVal (a ++ b) k =
      match lookupVal a k with
      | some v => some v
      | none => lookupVal b k := by
  induction a with
  | nil => rfl
  | cons kv rest ih =>
    by_cases h : (kv.1 == k) = true
    · simp [lookupVal, h]
    · have hf : (kv.1 == k) = false := by simpa using h
      simp [lookupVal, hf, ih]

theorem lookupVal_upsertMap_self (m : List (String × String)) (k v : String)
    (h : ∃ kv ∈ m, kv.1 = k) :
    lookupVal (m.map fun kv => if kv.1 == k then (k, v) else kv) k = some v := by
  induction m with
  | nil => simp at h
  | cons kv rest ih =>
    by_cases hkv : (kv.1 == k) = true
    · simp [lookupVal, hkv]
    · have hne : (kv.1 == k) = false := by simpa using hkv
      obtain ⟨x, hx, hxk⟩ := h
      rcases List.mem_cons.mp hx with rfl | hx'
      · rw [hxk] at hne
        simp at hne
      · have ih' := ih ⟨x, hx', hxk⟩
        simp only [List.map_cons, if_neg (by simp [hne] : ¬(kv.1 == k) = true),
          lookupVal, hne, Bool.false_eq_true, if_false]
        exact ih'

theorem lookupVal_upsertMap_other (m : List (String × String)) (k' v k : String)
    (h : (k' == k) = false) :
    lookupVal (m.map fun kv => if kv.1 == k' then (k', v) else kv) k
      = lookupVal m k := by
  induction m with
  | nil => rfl
  | cons kv rest ih =>
    by_cases hkv : (kv.1 == k') = true
    · have hkv' : kv.1 = k' := by simpa using hkv
      have hk2 : (kv.1 == k) = false := by rw [hkv']; exact h
      simp only [List.map_cons, if_pos hkv, lookupVal, h, hk2, Bool.false_eq_true,
        if_false]
      exact ih
    · have hne : (kv.1 == k') = false := by simpa using hkv
      simp only [List.map_cons, if_neg (by simp [hne] : ¬(kv.1 == k') = true),
        lookupVal]
      rw [ih]

theorem lookupVal_envUpsert (m : List (String × String)) (k' v k : String) :
    lookupVal (envUpsert m k' v) k
      = if (k' == k) = true then some v else lookupVal m k := by
  by_cases hany : (m.any fun kv => kv.1 == k') = true
  · rw [envUpsert, if_pos hany]
    by_cases hk : (k' == k) = true
    · have hk' : k' = k := by simpa using hk
      subst hk'
      rw [if_pos (beq_self_eq_true k')]
      obtain ⟨kv, hkv, hkv1⟩ : ∃ kv ∈ m, kv.1 = k' := by
        obtain ⟨kv, hkv, hb⟩ := List.any_eq_true.mp hany
        exact ⟨kv, hkv, by simpa using hb⟩
      exact lookupVal_upsertMap_self m k' v ⟨kv, hkv, hkv1⟩
    · have hkf : (k' == k) = false := by simpa using hk
      rw [if_neg (by simp [hkf])]
      exact lookupVal_upsertMap_other m k' v k hkf
  · rw [envUpsert, if_neg hany]
    have hanyf : ∀ kv ∈ m, kv.1 ≠ k' := by
      intro kv hkv
      by_contra he
      exact hany (List.any_eq_true.mpr ⟨kv, hkv, by simpa using he⟩)
    rw [lookupVal_append]
    by_cases hk : (k' == k) = true
    · have hk' : k' = k := by simpa using hk
      subst hk'
      rw [lookupVal_eq_none m k' hanyf]
      simp [lookupVal]
    · have hkf : (k' == k) = false := by simpa using hk
      cases hlv : lookupVal m k with
      | some w => simp [hlv, hkf]
      | none => simp [hlv, lookupVal, hkf]

theorem lookupVal_buildFold (pairs : List String) (m : List (String × String))
    (k : String) :
    lookupVal (pairs.foldl
      (fun m p =>
        match goSplitPair p with
        | none => m
        | some kv => envUpsert m kv.1 kv.2) m) k
    = pairs.foldl
        (fun acc p =>
          match goSplitPair p with
          | none => acc
          | some kv => if kv.1 == k then some kv.2 else acc)
        (lookupVal m k) := by
  induction pairs generalizing m with
  | nil => rfl
  | cons p rest ih =>
    simp only [List.foldl_cons]
    cases hsp : goSplitPair p with
    | none => exact ih m
    | some kv =>
      have hx := ih (envUpsert m kv.1 kv.2)
      rw [lookupVal_envUpsert] at hx
      exact hx

/-- The map built by `envPairsToJSON` binds each key to the value of the last
pair carrying that key. -/
theorem lookupVal_buildEnvMap (pairs : List String) (k : String) :
    lookupVal (buildEnvMap pairs) k = lastPairValue pairs k := by
  unfold buildEnvMap lastPairValue
  rw [lookupVal_buildFold]
  rfl

theorem keys_upsertMap (m : List (String × String)) (k v : String) :
    ((m.map fun kv => if kv.1 == k then (k, v) else kv).map fun kv => kv.1)
      = m.map fun kv => kv.1 := by
  induction m with
  | nil => rfl
  | cons kv rest ih =>
    simp only [List.map_cons, List.cons.injEq]
    refine ⟨?_, ih⟩
    by_cases hkv : (kv.1 == k) = true
    · rw [if_pos hkv]
      exact (show kv.1 = k by simpa using hkv).symm
    · rw [if_neg hkv]

theorem nodupKeys_envUpsert (m : List (String × String)) (k v : String)
    (h : (m.map fun kv => kv.1).Nodup) :
    ((envUpsert m k v).map fun kv => kv.1).Nodup := by
  by_cases hany : (m.any fun kv => kv.1 == k) = true
  · rw [envUpsert, if_pos hany, keys_upsertMap]
    exact h
  · rw [envUpsert, if_neg hany]
    have hnotmem : k ∉ m.map fun kv => kv.1 := by
      intro hk
      obtain ⟨kv, hkv, hkv1⟩ := List.mem_map.mp hk
      exact hany (List.any_eq_true.mpr ⟨kv, hkv, by simp [hkv1]⟩)
    simp only [List.map_append, List.map_cons, List.map_nil]
    exact List.Nodup.append h (by simp) (by
      intro a ha hb
      simp only [List.mem_singleton] at hb
      subst hb
      exact hnotmem ha)

theorem nodupKeys_buildEnvMap (pairs : List String) :
    ((buildEnvMap pairs).map fun kv => kv.1).Nodup := by
  unfold buildEnvMap
  have hgen : ∀ (l : List String) (m : List (String × String)),
      (m.map fun kv => kv.1).Nodup →
      ((l.foldl
        (fun m p =>
          match goSplitPair p with
          | none => m
          | some kv => envUpsert m kv.1 kv.2) m).map fun kv => kv.1).Nodup := by
    intro l
    induction l with
    | nil => intro m hm; exact hm
    | cons p rest ih =>
      intro m hm
      simp only [List.foldl_cons]
      cases hsp : goSplitPair p with
      | none => exact ih m hm
      | some kv => exact ih (envUpsert m kv.1 kv.2) (nodupKeys_envUpsert m kv.1 kv.2 hm)
  exact hgen pairs [] (by simp)

theorem mem_iff_lookupVal (m : List (String × String))
    (h : (m.map fun kv => kv.1).Nodup) (k v : String) :
    (k, v) ∈ m ↔ lookupVal m k = some v := by
  induction m with
  | nil => simp [lookupVal]
  | cons kv rest ih =>
    simp only [List.map_cons, List.nodup_cons] at h
    obtain ⟨hout, hrest⟩ := h
    constructor
    · intro hm
      rcases List.mem_cons.mp hm with heq | hm'
      · rw [← heq]
        simp [lookupVal]
      · have hlk : (kv.1 == k) = false := by
          apply beq_eq_false_iff_ne.mpr
          intro he
          exact hout (he ▸ List.mem_map.mpr ⟨(k, v), hm', rfl⟩)
        simp only [lookupVal, hlk, Bool.false_eq_true, if_false]
        exact (ih hrest).mp hm'
    · intro hl
      by_cases hlk : (kv.1 == k) = true
      · have h1 : kv.1 = k := by simpa using hlk
        simp only [lookupVal, hlk, if_true, Option.some.injEq] at hl
        have hkveq : kv = (k, v) := by
          obtain ⟨a, b⟩ := kv
          simp only at h1 hl
          rw [h1, hl]
        rw [← hkveq]
        exact List.mem_cons_self _ _
      · have hf : (kv.1 == k) = false := by simpa using hlk
        simp only [lookupVal, hf, Bool.false_eq_true, if_false] at hl
        exact List.mem_cons_of_mem _ ((ih hrest).mpr hl)

theorem insertSorted_perm (kv : String × String) (l : List (String × String)) :
    (insertSorted kv l).Perm (kv :: l) := by
  induction l with
  | nil => exact List.Perm.refl _
  | cons x xs ih =>
    rw [insertSorted]
    by_cases hle : strLe kv.1 x.1 = true
    · rw [if_pos hle]
    · rw [if_neg hle]
      exact (ih.cons x).trans (List.Perm.swap kv x xs)

theorem sortPairs_perm (l : List (String × String)) : (sortPairs l).Perm l := by
  induction l with
  | nil => exact List.Perm.refl _
  | cons x xs ih =>
    rw [sortPairs]
    exact (insertSorted_perm x (sortPairs xs)).trans (ih.cons x)

/-- Membership in the marshalled (key-sorted) binding list coincides with the
last-pair-wins semantics of the claim. -/
theorem mem_sortPairs_buildEnvMap (pairs : List String) (k v : String) :
    (k, v) ∈ sortPairs (buildEnvMap pairs) ↔ lastPairValue pairs k = some v := by
  rw [(sortPairs_perm (buildEnvMap pairs)).mem_iff,
    mem_iff_lookupVal (buildEnvMap pairs) (nodupKeys_buildEnvMap pairs) k v,
    lookupVal_buildEnvMap]

theorem countP_env_ite (c : Prop) [Decidable c] (n v : String)
    (h : (n == "env_vars") = false) :
    (if c then [FormPart.textField n v] else []).countP
      (fun fp => fp.fieldName == "env_vars") = 0 := by
  split
  · simp [List.countP_cons, FormPart.fieldName, h]
  · rfl

theorem countP_env_ite_le (c : Prop) [Decidable c] (v : String) :
    (if c then [FormPart.textField "env_vars" v] else []).countP
      (fun fp => fp.fieldName == "env_vars") ≤ 1 := by
  split
  · simp [List.countP_cons, FormPart.fieldName]
  · simp

theorem mem_ite_single {α : Type} (c : Prop) [Decidable c] (x fp : α)
    (h : fp ∈ (if c then [x] else [])) : fp = x := by
  split at h
  · simpa using h
  · simp at h

/-- C8: the multipart form carries at most one `env_vars` field and never a
repeated one; when present, its value is the single JSON object text of the
marshalled override map; and the marshalled bindings give each key the value
of the last `KEY=value` pair carrying it, each pair split at its first
equals sign. -/
theorem c8_env_vars_field (archive : List Nat) (appName : String) (force : Bool)
    (pairs : List String) (cpu memory port : String) :
    (buildFormParts archive appName force pairs cpu memory port).countP
        (fun fp => fp.fieldName == "env_vars") ≤ 1
    ∧ (∀ fp ∈ buildFormParts archive appName force pairs cpu memory port,
        fp.fieldName = "env_vars" →
          fp = FormPart.textField "env_vars" (envPairsToJSON pairs))
    ∧ (envPairsToJSON pairs ≠ "" →
        envPairsToJSON pairs = marshalStringMap (buildEnvMap pairs)
        ∧ ∃ inner, envPairsToJSON pairs = "\x7b" ++ inner ++ "\x7d")
    ∧ (∀ k v, (k, v) ∈ sortPairs (buildEnvMap pairs)
        ↔ lastPairValue pairs k = some v) := by
  refine ⟨?_, ?_, ?_, fun k v => mem_sortPairs_buildEnvMap pairs k v⟩
  · unfold buildFormParts
    simp only [List.countP_append]
    rw [countP_env_ite _ "force" "true" (by decide),
      countP_env_ite _ "app_name" appName (by decide),
      countP_env_ite _ "cpu" cpu (by decide),
      countP_env_ite _ "memory" memory (by decide),
      countP_env_ite _ "port" port (by decide)]
    have harch : ([FormPart.filePart "archive" "app.tar.gz" archive]).countP
        (fun fp => fp.fieldName == "env_vars") = 0 := by
      simp [List.countP_cons, FormPart.fieldName]
    rw [harch]
    have henv := countP_env_ite_le (envPairsToJSON pairs ≠ "") (envPairsToJSON pairs)
    omega
  · intro fp hfp hname
    simp only [buildFormParts, List.mem_append] at hfp
    rcases hfp with ((((((h | h) | h) | h) | h) | h) | h)
    · rw [show fp = FormPart.filePart "archive" "app.tar.gz" archive by simpa using h]
        at hname
      simp [FormPart.fieldName] at hname
    · rw [mem_ite_single _ _ _ h] at hname
      simp [FormPart.fieldName] at hname
    · rw [mem_ite_single _ _ _ h] at hname
      simp [FormPart.fieldName] at hname
    · exact mem_ite_single _ _ _ h
    · rw [mem_ite_single _ _ _ h] at hname
      simp [FormPart.fieldName] at hname
    · rw [mem_ite_single _ _ _ h] at hname
      simp [FormPart.fieldName] at hname
    · rw [mem_ite_single _ _ _ h] at hname
      simp [FormPart.fieldName] at hname
  · intro hne
    by_cases h1 : pairs.isEmpty = true
    · exact absurd (by simp [envPairsToJSON, h1]) hne
    · by_cases h2 : (buildEnvMap pairs).isEmpty = true
      · exact absurd (by simp [envPairsToJSON, h1, h2]) hne
      · have he : envPairsToJSON pairs = marshalStringMap (buildEnvMap pairs) := by
          simp [envPairsToJSON, h1, h2]
        refine ⟨he, String.intercalate ","
            ((sortPairs (buildEnvMap pairs)).map fun kv =>
              jsonQuote kv.1 ++ ":" ++ jsonQuote kv.2), ?_⟩
        rw [he]
        unfold marshalStringMap
        rfl

set_option maxHeartbeats 1000000 in
theorem c8_env_vars_field_witness :
    FormPart.textField "env_vars" "\x7b\"A\":\"2\"\x7d"
      = FormPart.textField "env_vars" (envPairsToJSON ["A=1", "A=2"])
    ∧ (("A", "2") ∈ sortPairs (buildEnvMap ["A=1", "A=2"])
        ↔ lastPairValue ["A=1", "A=2"] "A" = some "2") :=
  ⟨(c8_env_vars_field [9] "app" false ["A=1", "A=2"] "" "" "").2.1
      (FormPart.textField "env_vars" "\x7b\"A\":\"2\"\x7d") (by decide) rfl,
   (c8_env_vars_field [9] "app" false ["A=1", "A=2"] "" "" "").2.2.2 "A" "2"⟩
